import Mathlib

/-!
Verification development for the geeparse call-graph extractor.

The Go sources are shallowly embedded:
* `pkg/callgraph/callgraph.go` — AST-based declaration indexing, the lexical
  call extractor (from the `oldcode2.md` reference implementation) and the
  LSP-backed precision extractor, plus the graph assembly step.
* `pkg/persistence/persistence.go` — the SQLite-backed store (`SaveGraph`,
  `LoadGraph`), with the transaction modelled as a private copy of the
  database state that is published on commit and discarded on rollback, and
  with the schema's PRIMARY KEY / FOREIGN KEY checks made explicit.
* `pkg/lspclient/lspclient.go` — the `Close` lifecycle method of the gopls
  session client, with the side effects it performs recorded as a list.

Go maps are embedded as association lists with Go's assignment semantics
(`mapSet` overwrites in place), and iteration follows list order; properties
proved here are insensitive to Go's nondeterministic map iteration order.
-/

namespace Geeparse

/-- `FunctionNode` from pkg/callgraph/callgraph.go: one node of the graph. -/
structure FunctionNode where
  callees : List String
  signature : String
  definition : String
deriving DecidableEq, Repr

/-- Association-list lookup, the embedding of Go map indexing `m[k]`. -/
def alookup {α : Type} : List (String × α) → String → Option α
  | [], _ => none
  | (k, v) :: rest, key => if k = key then some v else alookup rest key

/-- Association-list update, the embedding of Go map assignment `m[k] = v`:
overwrite the existing entry for `k` in place, or append a fresh one. -/
def mapSet {α : Type} : List (String × α) → String → α → List (String × α)
  | [], k, v => [(k, v)]
  | (k0, v0) :: rest, k, v =>
      if k0 = k then (k, v) :: rest else (k0, v0) :: mapSet rest k v

/-- The keys of an association list. -/
def keysOf {α : Type} (m : List (String × α)) : List String := m.map (·.1)

/-!
## Persistent graph store (pkg/persistence/persistence.go)

The database state is the contents of the two tables created by `NewStore`:
`functions(name PRIMARY KEY, signature, definition)` and
`calls(caller, callee, PRIMARY KEY(caller, callee))` with foreign keys from
both `calls` columns into `functions(name)` (`PRAGMA foreign_keys = ON`).

A SQL transaction is modelled as a private copy of the `DB` value: each
statement transforms the copy, `Commit` publishes it, and every error path
(which in the Go code calls `tx.Rollback()` and returns) leaves the
previously persisted state untouched.  Failures injected by the driver
(I/O errors, timeouts) are modelled by a `FailSpec` oracle; constraint
violations (duplicate primary key on `functions`, foreign-key violation on
`calls`) are modelled explicitly.  `INSERT OR IGNORE` on `calls` turns a
duplicate-primary-key conflict into a no-op, but does not suppress
foreign-key violations.
-/

/-- One row of the `functions` table: name, signature, definition. -/
structure FnRow where
  name : String
  signature : String
  definition : String
deriving DecidableEq, Repr

/-- The persisted state: the `functions` rows and the `calls` rows. -/
structure DB where
  functions : List FnRow
  calls : List (String × String)
deriving DecidableEq, Repr

/-- The names present in the `functions` table (its primary-key column). -/
def fnNames (db : DB) : List String := db.functions.map (·.name)

/-- Failure oracle for `SaveGraph`: which driver-level steps fail.  Function
and edge inserts fail per row, matching an error on that `Exec` call. -/
structure FailSpec where
  beginFail : Bool
  deleteCallsFail : Bool
  deleteFnsFail : Bool
  prepFnFail : Bool
  prepCallFail : Bool
  insertFnFail : String → Bool
  insertCallFail : String → String → Bool
  commitFail : Bool

/-- The oracle under which no driver-level step fails. -/
def noFail : FailSpec where
  beginFail := false
  deleteCallsFail := false
  deleteFnsFail := false
  prepFnFail := false
  prepCallFail := false
  insertFnFail := fun _ => false
  insertCallFail := fun _ _ => false
  commitFail := false

/-- Loop 1 of `SaveGraph`: `INSERT INTO functions(name, signature, definition)`
for every graph entry.  A plain insert fails on a duplicate primary key. -/
def insertFunctionsLoop (fs : FailSpec) :
    DB → List (String × FunctionNode) → Except String DB
  | tx, [] => .ok tx
  | tx, (name, node) :: rest =>
    if fs.insertFnFail name then .error ("insert function " ++ name)
    else if name ∈ fnNames tx then .error ("insert function " ++ name)
    else insertFunctionsLoop fs
      { tx with functions := tx.functions ++ [⟨name, node.signature, node.definition⟩] } rest

/-- One `INSERT OR IGNORE INTO calls(caller, callee)`: a duplicate
(caller, callee) primary key is ignored, a foreign-key violation (either
endpoint missing from `functions`) is an error. -/
def insertCallRow (fs : FailSpec) (tx : DB) (caller callee : String) : Except String DB :=
  if fs.insertCallFail caller callee then .error ("insert call " ++ caller ++ " " ++ callee)
  else if caller ∉ fnNames tx ∨ callee ∉ fnNames tx then
    .error ("insert call " ++ caller ++ " " ++ callee)
  else if (caller, callee) ∈ tx.calls then .ok tx
  else .ok { tx with calls := tx.calls ++ [(caller, callee)] }

/-- The inner loop of loop 2 of `SaveGraph`: insert every callee of one node. -/
def insertCallsForNode (fs : FailSpec) (caller : String) :
    DB → List String → Except String DB
  | tx, [] => .ok tx
  | tx, callee :: rest =>
    match insertCallRow fs tx caller callee with
    | .error e => .error e
    | .ok tx1 => insertCallsForNode fs caller tx1 rest

/-- Loop 2 of `SaveGraph`: insert the call edges of every graph entry. -/
def insertCallsLoop (fs : FailSpec) :
    DB → List (String × FunctionNode) → Except String DB
  | tx, [] => .ok tx
  | tx, (caller, node) :: rest =>
    match insertCallsForNode fs caller tx node.callees with
    | .error e => .error e
    | .ok tx1 => insertCallsLoop fs tx1 rest

/-- The transaction body of `SaveGraph`: begin, `DELETE FROM calls`,
`DELETE FROM functions`, prepare the two statements, insert all function
rows, insert all call edges.  Any error aborts (the Go code rolls back and
returns on every error path). -/
def saveGraphTx (fs : FailSpec) (db : DB) (g : List (String × FunctionNode)) :
    Except String DB :=
  if fs.beginFail then .error "begin tx"
  else if fs.deleteCallsFail then .error "delete calls"
  else
    let tx1 : DB := { db with calls := [] }
    if fs.deleteFnsFail then .error "delete functions"
    else
      let tx2 : DB := { tx1 with functions := [] }
      if fs.prepFnFail then .error "prepare insert function"
      else if fs.prepCallFail then .error "prepare insert call"
      else
        match insertFunctionsLoop fs tx2 g with
        | .error e => .error e
        | .ok tx3 => insertCallsLoop fs tx3 g

/-- `SaveGraph`: run the transaction; on success commit publishes the new
state, on any failure the rollback leaves the prior state in place and the
error is returned to the caller. -/
def saveGraph (fs : FailSpec) (db : DB) (g : List (String × FunctionNode)) :
    DB × Option String :=
  match saveGraphTx fs db g with
  | .ok tx => if fs.commitFail then (db, some "commit tx") else (tx, none)
  | .error e => (db, some e)

/-- One step of the edge loop of `LoadGraph`: append `callee` to its
caller's list, skipping edges whose caller is not a key of the map. -/
def loadEdgeStep (m : List (String × FunctionNode)) (e : String × String) :
    List (String × FunctionNode) :=
  match alookup m e.1 with
  | some node => mapSet m e.1 { node with callees := node.callees ++ [e.2] }
  | none => m

/-- One step of the function loop of `LoadGraph`: one `functions` row becomes
a node with an empty (non-nil) callee list. -/
def loadFnStep (m : List (String × FunctionNode)) (r : FnRow) :
    List (String × FunctionNode) :=
  mapSet m r.name { callees := [], signature := r.signature, definition := r.definition }

/-- `LoadGraph`: read every `functions` row into a node with an empty (non-nil)
callee list, then append each `calls` row's callee to its caller's list. -/
def loadGraph (db : DB) : List (String × FunctionNode) :=
  db.calls.foldl loadEdgeStep (db.functions.foldl loadFnStep [])

/-!
## LSP client session lifecycle (pkg/lspclient/lspclient.go)

Only the `Close` method is needed here.  The `Client` state tracked by
`Close` is the `connected` flag; the side effects `Close` can perform —
closing the JSON-RPC connection, closing the stdio stream, killing the
gopls subprocess, cancelling the context — are recorded as an explicit
list of actions. -/

/-- The side effects `Client.Close` can perform. -/
inductive CloseAction where
  | connClose
  | streamClose
  | procKill
  | ctxCancel
deriving DecidableEq, Repr

/-- The `Client` state consulted and mutated by `Close`. -/
structure Client where
  rootDir : String
  connected : Bool
deriving DecidableEq, Repr

/-- `Client.Close`: if the client is not connected, return immediately with
no effects; otherwise clear `connected`, then close the connection, close
the stream, kill the gopls subprocess, and cancel the context. -/
def closeClient (c : Client) : Client × List CloseAction :=
  if !c.connected then (c, [])
  else ({ c with connected := false },
        [.connClose, .streamClose, .procKill, .ctxCancel])

/-!
## Save/load round-trip machinery

`fnRowsOf` and `edgesOf` describe the table contents a successful
`SaveGraph` leaves behind; the invariants named by the spec (map keys
unique, closed-world callees, duplicate-free callee lists) are what make
every insert succeed under a failure-free driver.
-/

/-- Keys of the association list are unique (intrinsic to a Go map). -/
@[reducible] def nodupKeys {α : Type} (m : List (String × α)) : Prop := (keysOf m).Nodup

/-- Closed-world invariant: every callee of every node is a key of the map. -/
@[reducible] def closedWorld (g : List (String × FunctionNode)) : Prop :=
  ∀ p ∈ g, ∀ c ∈ p.2.callees, c ∈ keysOf g

/-- Every callee list is duplicate-free. -/
@[reducible] def dupFreeCallees (g : List (String × FunctionNode)) : Prop :=
  ∀ p ∈ g, p.2.callees.Nodup

/-- The `functions` rows a successful save writes, in iteration order. -/
def fnRowsOf (g : List (String × FunctionNode)) : List FnRow :=
  g.map (fun p => ⟨p.1, p.2.signature, p.2.definition⟩)

/-- The `calls` rows a successful save writes, in iteration order. -/
def edgesOf (g : List (String × FunctionNode)) : List (String × String) :=
  g.flatMap (fun p => p.2.callees.map (fun c => (p.1, c)))

/-- The callees that the edge loop of `LoadGraph` appends to caller `k`,
in `calls`-row order. -/
def callsTo (calls : List (String × String)) (k : String) : List String :=
  (calls.filter (fun e => e.1 == k)).map (·.2)

/-- The end-to-end example of the spec: `A` calls `B`; `B` and `C` have no
callees. -/
def exampleGraph : List (String × FunctionNode) :=
  [("A", { callees := ["B"], signature := "sigA", definition := "defA" }),
   ("B", { callees := [], signature := "sigB", definition := "defB" }),
   ("C", { callees := [], signature := "sigC", definition := "defC" })]

/-- A graph whose single caller lists the same callee twice. -/
def dupEdgeGraph : List (String × FunctionNode) :=
  [("a", { callees := ["b", "b"], signature := "sa", definition := "da" }),
   ("b", { callees := [], signature := "sb", definition := "dburg" })]

/-!
## Call-graph extraction (pkg/callgraph/callgraph.go and oldcode2.md)

A Go source corpus is embedded as a list of files, each a list of function
declarations.  A declaration carries its name, the printed signature and
definition text (the output of `printer.Fprint`, treated as given text),
and an optional body.  A body is an expression tree; `ast.Inspect`'s
traversal of every node corresponds to structural recursion over the tree.
For precision mode, the gopls responses belonging to a declaration are part
of the input: `prepareRes` is the server's answer to
textDocument/prepareCallHierarchy at the declaration's name position (an
error, or a list of call-hierarchy items), and each item carries the
server's answer to callHierarchy/outgoingCalls on it (an error, or the
list of `call.To.Name` strings).
-/

/-- A Go expression subtree, as far as the extractors inspect it: a bare
identifier, a selector `base.sel`, a call `fn(arg)` (a multi-argument call
nests its arguments with `comp`), any other interior node with two
children, or any other leaf. -/
inductive Expr where
  | ident (name : String)
  | selector (base : Expr) (sel : String)
  | call (fn : Expr) (arg : Expr)
  | comp (a : Expr) (b : Expr)
  | atom
deriving DecidableEq, Repr

/-- The call-target names `ast.Inspect` encounters in a subtree, in visit
order: at each `CallExpr` the bare identifier name (`*ast.Ident`) or the
trailing selector name (`*ast.SelectorExpr`) of its `Fun`, if either
applies; the traversal then descends into every child. -/
def callTargets : Expr → List String
  | .ident _ => []
  | .selector base _ => callTargets base
  | .call fn arg =>
      (match fn with
       | .ident n => [n]
       | .selector _ s => [s]
       | _ => []) ++ callTargets fn ++ callTargets arg
  | .comp a b => callTargets a ++ callTargets b
  | .atom => []

instance instDecEqExcept {ε α : Type} [DecidableEq ε] [DecidableEq α] :
    DecidableEq (Except ε α) := fun
  | .error e1, .error e2 =>
      if h : e1 = e2 then isTrue (h ▸ rfl)
      else isFalse (fun hc => h (Except.error.inj hc))
  | .error _, .ok _ => isFalse (fun hc => Except.noConfusion hc)
  | .ok _, .error _ => isFalse (fun hc => Except.noConfusion hc)
  | .ok a1, .ok a2 =>
      if h : a1 = a2 then isTrue (h ▸ rfl)
      else isFalse (fun hc => h (Except.ok.inj hc))

/-- A gopls call-hierarchy item, carrying the server's answer to
callHierarchy/outgoingCalls on it: an error, or the `call.To.Name` list. -/
structure Item where
  outgoingRes : Except Unit (List String)
deriving DecidableEq, Repr

/-- One function declaration of the corpus, with the gopls responses that
belong to it. -/
structure GoDecl where
  name : String
  signature : String
  definition : String
  body : Option Expr
  prepareRes : Except Unit (List Item)
deriving DecidableEq, Repr

/-- A parsed Go file is its list of function declarations. -/
abbrev GoFile := List GoDecl

/-- The known-name set built by `parseGoFiles`: every function
declaration's name, body or no body (membership in this list embeds
membership in the Go set). -/
def namesOf (files : List GoFile) : List String :=
  files.flatMap (fun f => f.map (·.name))

/-- All declarations of the corpus in walk order. -/
def declsOf (files : List GoFile) : List GoDecl := files.flatMap id

/-- `funcDetail`: the printed signature and definition of one function. -/
structure FuncDetail where
  signature : String
  definition : String
deriving DecidableEq, Repr

/-- `extractDetails` / `extractFuncDetails`: walk every file and every
declaration, writing the printed signature and definition into the map
under the declaration's name (a later declaration with the same name
overwrites an earlier one). -/
def extractDetails (files : List GoFile) : List (String × FuncDetail) :=
  files.foldl (fun m f =>
    f.foldl (fun m2 d => mapSet m2 d.name ⟨d.signature, d.definition⟩) m) []

/-- Go's `graph[caller] = append(graph[caller], callee)`: a missing entry
behaves as the empty list. -/
def addEdge (graph : List (String × List String)) (caller callee : String) :
    List (String × List String) :=
  mapSet graph caller ((alookup graph caller).getD [] ++ [callee])

/-- Append every collected callee of one caller, in order. -/
def appendEdges (graph : List (String × List String)) (caller : String)
    (callees : List String) : List (String × List String) :=
  callees.foldl (fun g c => addEdge g caller c) graph

/-- The `calleeSet` / `seen` filtering of both extractors: keep the targets
that are known names, dropping repeats; order is first occurrence. -/
def dedupKeep (names : List String) (xs : List String) : List String :=
  xs.foldl (fun acc x => if x ∈ names ∧ x ∉ acc then acc ++ [x] else acc) []

/-- The distinct known callees the lexical extractor collects from one
function body. -/
def lexCallees (names : List String) (body : Expr) : List String :=
  dedupKeep names (callTargets body)

/-- One declaration's step of `extractCallGraph` (oldcode2.md): skip a
declaration without a body; otherwise collect the body's known call
targets into a set and append them to the caller's entry. -/
def processDeclLex (names : List String) (graph : List (String × List String))
    (d : GoDecl) : List (String × List String) :=
  match d.body with
  | none => graph
  | some b => appendEdges graph d.name (lexCallees names b)

/-- `extractCallGraph`: the lexical extractor over all files and decls. -/
def extractCallGraph (names : List String) (files : List GoFile) :
    List (String × List String) :=
  files.foldl (fun g f => f.foldl (processDeclLex names) g) []

/-- One declaration's step of `extractGraphLSP`: skip a declaration without
a body; skip (after logging) when prepareCallHierarchy errs or returns no
items; query outgoingCalls on the first item only (`root := items[0]`),
skipping on error; keep the known callee names deduplicated and append them
to the caller's entry. -/
def processDeclLSP (names : List String) (graph : List (String × List String))
    (d : GoDecl) : List (String × List String) :=
  match d.body with
  | none => graph
  | some _ =>
    match d.prepareRes with
    | .error _ => graph
    | .ok [] => graph
    | .ok (root :: _) =>
      match root.outgoingRes with
      | .error _ => graph
      | .ok outs => appendEdges graph d.name (dedupKeep names outs)

/-- `extractGraphLSP`: the precision extractor.  The Go function's only
return statement is `return graph, nil`; the second component embeds the
always-nil error. -/
def extractGraphLSP (names : List String) (files : List GoFile) :
    (List (String × List String)) × Option String :=
  (files.foldl (fun g f => f.foldl (processDeclLSP names) g) [], none)

/-- Step 6 of `BuildCallGraph` / the merge loop of `buildCallGraph`: for
every declaration-index entry build a node, defaulting a missing raw-graph
entry (a nil slice) to the empty list. -/
def assembleGraph (details : List (String × FuncDetail))
    (raw : List (String × List String)) : List (String × FunctionNode) :=
  details.foldl (fun out p =>
    mapSet out p.1
      { callees := (alookup raw p.1).getD [], signature := p.2.signature,
        definition := p.2.definition }) []

/-- The lexical pipeline `buildCallGraph` of oldcode2.md (without the HTTP
layer): parse, extract details, extract raw edges, assemble. -/
def buildCallGraphLex (files : List GoFile) : List (String × FunctionNode) :=
  assembleGraph (extractDetails files) (extractCallGraph (namesOf files) files)

/-- The precision pipeline `BuildCallGraph` of pkg/callgraph (given a
session whose start-up and document registration succeeded, which the Go
code requires before extraction runs): parse, extract details, extract raw
edges via gopls, assemble. -/
def buildCallGraphLSP (files : List GoFile) : List (String × FunctionNode) :=
  assembleGraph (extractDetails files) (extractGraphLSP (namesOf files) files).1

/-- The raw edge map's entry for one caller, a missing entry read as empty. -/
def rawLookup (g : List (String × List String)) (k : String) : List String :=
  (alookup g k).getD []

/-- The last declaration of the corpus carrying a given name. -/
def lastDeclNamed (files : List GoFile) (n : String) : Option GoDecl :=
  (declsOf files).reverse.find? (fun d => d.name == n)

/-- A body with two distinct call sites targeting `f`: one bare-identifier
call and one qualified call whose trailing selector is `f`. -/
def twoCallBody : Expr :=
  .comp (.call (.ident "f") .atom) (.call (.selector .atom "f") .atom)

/-- A declaration whose prepare-call-hierarchy query fails. -/
def failingDecl : GoDecl :=
  { name := "a", signature := "s", definition := "d", body := some .atom,
    prepareRes := .error () }

/-- First of two colliding declarations of `f`: body calls `g`. -/
def collideDecl1 : GoDecl :=
  { name := "f", signature := "sig1", definition := "def1",
    body := some (.call (.ident "g") .atom), prepareRes := .ok [] }

/-- Second of two colliding declarations of `f`: body calls `h`. -/
def collideDecl2 : GoDecl :=
  { name := "f", signature := "sig2", definition := "def2",
    body := some (.call (.ident "h") .atom), prepareRes := .ok [] }

/-- A corpus declaring `f` twice plus its two callees. -/
def collideCorpus : List GoFile :=
  [[collideDecl1, collideDecl2,
    { name := "g", signature := "sg", definition := "dg", body := none, prepareRes := .ok [] },
    { name := "h", signature := "sh", definition := "dh", body := none, prepareRes := .ok [] }]]

/-- An externally implemented (bodyless) function declaration. -/
def externDecl : GoDecl :=
  { name := "ext", signature := "se", definition := "de", body := none,
    prepareRes := .ok [] }

/-- A caller whose body calls the bodyless `ext`. -/
def externCaller : GoDecl :=
  { name := "m", signature := "sm", definition := "dm",
    body := some (.call (.ident "ext") .atom), prepareRes := .ok [] }

/-- A corpus with the bodyless declaration and a caller whose body calls it. -/
def externCorpus : List GoFile := [[externDecl, externCaller]]

/-!
## Theorems
-/

theorem alookup_mapSet {α : Type} (m : List (String × α)) (k k0 : String) (v : α) :
    alookup (mapSet m k v) k0 = if k = k0 then some v else alookup m k0 := by
  induction m with
  | nil => simp [mapSet, alookup]
  | cons hd tl ih =>
    obtain ⟨k1, v1⟩ := hd
    by_cases h1 : k1 = k
    · subst h1
      by_cases h0 : k1 = k0 <;> simp [mapSet, alookup, h0]
    · by_cases h0 : k1 = k0
      · subst h0
        have : k ≠ k1 := fun h => h1 h.symm
        simp [mapSet, alookup, h1, this]
      · simp [mapSet, alookup, h1, h0, ih]

theorem mem_keysOf_mapSet {α : Type} (m : List (String × α)) (k k0 : String) (v : α) :
    k0 ∈ keysOf (mapSet m k v) ↔ k0 ∈ keysOf m ∨ k0 = k := by
  induction m with
  | nil => simp [mapSet, keysOf, eq_comm]
  | cons hd tl ih =>
    obtain ⟨k1, v1⟩ := hd
    by_cases h1 : k1 = k
    · subst h1
      constructor
      · intro h
        rcases (by simpa [mapSet, keysOf] using h) with h | h
        · right; exact h
        · left; simp [keysOf, h]
      · intro h
        rcases h with h | h
        · rcases (by simpa [keysOf] using h) with h | h
          · simp [mapSet, keysOf, h]
          · simp [mapSet, keysOf, h]
        · simp [mapSet, keysOf, h]
    · simp only [mapSet, if_neg h1, keysOf, List.map_cons, List.mem_cons]
      constructor
      · intro h
        rcases h with h | h
        · left; left; exact h
        · rcases (ih.mp h) with h | h
          · left; right; exact h
          · right; exact h
      · intro h
        rcases h with (h | h) | h
        · left; exact h
        · right; exact ih.mpr (Or.inl h)
        · right; exact ih.mpr (Or.inr h)

theorem alookup_eq_none_iff {α : Type} (m : List (String × α)) (k : String) :
    alookup m k = none ↔ k ∉ keysOf m := by
  induction m with
  | nil => simp [alookup, keysOf]
  | cons hd tl ih =>
    obtain ⟨k1, v1⟩ := hd
    by_cases h : k1 = k
    · subst h; simp [alookup, keysOf]
    · simp only [alookup, if_neg h, keysOf, List.map_cons, List.mem_cons, ih]
      constructor
      · intro hn hc
        rcases hc with hc | hc
        · exact h hc.symm
        · exact hn hc
      · intro hn hc
        exact hn (Or.inr hc)

theorem alookup_isSome_iff {α : Type} (m : List (String × α)) (k : String) :
    (alookup m k).isSome ↔ k ∈ keysOf m := by
  constructor
  · intro hs
    by_contra hmem
    rw [← alookup_eq_none_iff] at hmem
    rw [hmem] at hs
    simp at hs
  · intro hmem
    cases hl : alookup m k with
    | none => exact absurd hmem ((alookup_eq_none_iff m k).mp hl)
    | some v => simp

theorem mapSet_of_not_mem {α : Type} (m : List (String × α)) (k : String) (v : α)
    (h : k ∉ keysOf m) : mapSet m k v = m ++ [(k, v)] := by
  induction m with
  | nil => simp [mapSet]
  | cons hd tl ih =>
    obtain ⟨k1, v1⟩ := hd
    have h1 : k1 ≠ k := by
      intro he; exact h (by simp [keysOf, he])
    have h2 : k ∉ keysOf tl := fun hm => h (by simp [keysOf] at hm ⊢; right; exact hm)
    simp [mapSet, h1, ih h2]

theorem alookup_append {α : Type} (m1 m2 : List (String × α)) (k : String) :
    alookup (m1 ++ m2) k =
      match alookup m1 k with
      | some v => some v
      | none => alookup m2 k := by
  induction m1 with
  | nil => simp [alookup]
  | cons hd tl ih =>
    obtain ⟨k1, v1⟩ := hd
    by_cases h : k1 = k <;> simp [alookup, h, ih]

theorem nodup_keysOf_mapSet {α : Type} (m : List (String × α)) (k : String) (v : α)
    (h : (keysOf m).Nodup) : (keysOf (mapSet m k v)).Nodup := by
  induction m with
  | nil => simp [mapSet, keysOf]
  | cons hd tl ih =>
    obtain ⟨k1, v1⟩ := hd
    simp only [keysOf, List.map_cons, List.nodup_cons] at h
    by_cases h1 : k1 = k
    · subst h1
      simpa [mapSet, keysOf] using h
    · have hgoal : (keysOf (mapSet ((k1, v1) :: tl) k v)) = k1 :: keysOf (mapSet tl k v) := by
        simp [mapSet, if_neg h1, keysOf]
      rw [hgoal]
      refine List.nodup_cons.mpr ⟨?_, ih h.2⟩
      intro hmem
      rcases (mem_keysOf_mapSet tl k k1 v).mp hmem with hh | hh
      · exact h.1 hh
      · exact h1 hh

/-- C2: SaveGraph is atomic.  If any step of the save fails — begin, the
delete of edges, the delete of functions, preparing either statement, any
function-row insert, or any edge-row insert (all surfaced as a returned
error) — the transaction is rolled back and the persisted state is exactly
what it was before `SaveGraph` was called; moreover a failure injected at
any of the fixed steps is guaranteed to surface as an error with the state
unchanged.  No partially written graph is ever left in the store. -/
theorem saveGraph_atomic (fs : FailSpec) (db : DB) (g : List (String × FunctionNode)) :
    ((saveGraph fs db g).2 ≠ none → (saveGraph fs db g).1 = db)
    ∧ (fs.beginFail = true ∨ fs.deleteCallsFail = true ∨ fs.deleteFnsFail = true
        ∨ fs.prepFnFail = true ∨ fs.prepCallFail = true ∨ fs.commitFail = true →
        (saveGraph fs db g).1 = db ∧ (saveGraph fs db g).2 ≠ none) := by
  constructor
  · intro h
    unfold saveGraph at h ⊢
    cases htx : saveGraphTx fs db g with
    | ok tx =>
      by_cases hc : fs.commitFail <;> simp [hc, htx] at h ⊢
    | error e => simp
  · intro h
    unfold saveGraph
    cases htx : saveGraphTx fs db g with
    | ok tx =>
      have hflags : fs.beginFail = false ∧ fs.deleteCallsFail = false
          ∧ fs.deleteFnsFail = false ∧ fs.prepFnFail = false ∧ fs.prepCallFail = false := by
        by_contra hcon
        unfold saveGraphTx at htx
        by_cases h1 : fs.beginFail <;> by_cases h2 : fs.deleteCallsFail <;>
          by_cases h3 : fs.deleteFnsFail <;> by_cases h4 : fs.prepFnFail <;>
          by_cases h5 : fs.prepCallFail <;> simp [h1, h2, h3, h4, h5] at htx hcon
      have hcommit : fs.commitFail = true := by
        rcases h with h | h | h | h | h | h
        · rw [h] at hflags; simp at hflags
        · rw [h] at hflags; simp at hflags
        · rw [h] at hflags; simp at hflags
        · rw [h] at hflags; simp at hflags
        · rw [h] at hflags; simp at hflags
        · exact h
      simp [hcommit]
    | error e => simp

/-- C2 witness: a failure injected at the edge-delete step leaves a concrete
prior state untouched and surfaces as an error. -/
theorem saveGraph_atomic_witness :
    (saveGraph
      { noFail with deleteCallsFail := true }
      { functions := [⟨"a", "s", "d"⟩], calls := [] }
      [("b", { callees := [], signature := "t", definition := "e" })]).1
      = { functions := [⟨"a", "s", "d"⟩], calls := [] } ∧
    (saveGraph
      { noFail with deleteCallsFail := true }
      { functions := [⟨"a", "s", "d"⟩], calls := [] }
      [("b", { callees := [], signature := "t", definition := "e" })]).2 ≠ none := by
  exact (saveGraph_atomic
    { noFail with deleteCallsFail := true }
    { functions := [⟨"a", "s", "d"⟩], calls := [] }
    [("b", { callees := [], signature := "t", definition := "e" })]).2
    (by right; left; rfl)

/-- C7: session shutdown is idempotent.  After one `Close`, every further
`Close` performs no connection close, no stream close, no subprocess kill
and no cancellation, and leaves the client state unchanged. -/
theorem closeClient_idempotent (c : Client) :
    closeClient (closeClient c).1 = ((closeClient c).1, []) := by
  unfold closeClient
  by_cases h : c.connected <;> simp [h]

theorem keysOf_append {α : Type} (m1 m2 : List (String × α)) :
    keysOf (m1 ++ m2) = keysOf m1 ++ keysOf m2 := by
  simp [keysOf]

theorem alookup_mem {α : Type} (m : List (String × α)) (k : String) (v : α)
    (h : alookup m k = some v) : (k, v) ∈ m := by
  induction m with
  | nil => simp [alookup] at h
  | cons hd tl ih =>
    obtain ⟨k1, v1⟩ := hd
    by_cases hk : k1 = k
    · subst hk
      simp [alookup] at h
      simp [h]
    · simp only [alookup, if_neg hk] at h
      exact List.mem_cons_of_mem _ (ih h)

theorem keysOf_cons {α : Type} (p : String × α) (tl : List (String × α)) :
    keysOf (p :: tl) = p.1 :: keysOf tl := rfl

theorem names_fnRowsOf (g : List (String × FunctionNode)) :
    (fnRowsOf g).map (·.name) = keysOf g := by
  simp [fnRowsOf, keysOf, List.map_map]

theorem edgesOf_cons (p : String × FunctionNode) (rest : List (String × FunctionNode)) :
    edgesOf (p :: rest) = p.2.callees.map (fun c => (p.1, c)) ++ edgesOf rest := by
  simp [edgesOf]

theorem mem_edgesOf_fst (g : List (String × FunctionNode)) (e : String × String)
    (h : e ∈ edgesOf g) : e.1 ∈ keysOf g := by
  induction g with
  | nil => simp [edgesOf] at h
  | cons hd tl ih =>
    rw [edgesOf_cons] at h
    rcases List.mem_append.mp h with h | h
    · rcases List.mem_map.mp h with ⟨c, _, hc⟩
      simp [keysOf, ← hc]
    · simp only [keysOf, List.map_cons, List.mem_cons]
      right
      exact ih h

theorem insertFunctionsLoop_noFail (g : List (String × FunctionNode)) :
    ∀ tx : DB, nodupKeys g → (∀ k ∈ keysOf g, k ∉ fnNames tx) →
    insertFunctionsLoop noFail tx g =
      .ok { tx with functions := tx.functions ++ fnRowsOf g } := by
  induction g with
  | nil => intro tx _ _; simp [insertFunctionsLoop, fnRowsOf]
  | cons hd tl ih =>
    intro tx hnd hdis
    obtain ⟨n, nd⟩ := hd
    have hn : n ∉ fnNames tx := hdis n (by rw [keysOf_cons]; exact List.mem_cons_self _ _)
    have hstep : insertFunctionsLoop noFail tx ((n, nd) :: tl) =
        insertFunctionsLoop noFail
          { tx with functions := tx.functions ++ [⟨n, nd.signature, nd.definition⟩] } tl := by
      simp [insertFunctionsLoop, noFail, hn]
    rw [hstep]
    have hnd2 : nodupKeys tl := by
      have := hnd
      simp only [nodupKeys, keysOf, List.map_cons, List.nodup_cons] at this
      exact this.2
    have hnmem : n ∉ keysOf tl := by
      have := hnd
      simp only [nodupKeys, keysOf, List.map_cons, List.nodup_cons] at this
      exact this.1
    have hdis2 : ∀ k ∈ keysOf tl,
        k ∉ fnNames { tx with functions := tx.functions ++ [⟨n, nd.signature, nd.definition⟩] } := by
      intro k hk
      have h1 : k ∉ fnNames tx := hdis k (by rw [keysOf_cons]; exact List.mem_cons_of_mem _ hk)
      have h2 : k ≠ n := fun he => hnmem (he ▸ hk)
      simp [fnNames] at h1 ⊢
      exact ⟨h1, h2⟩
    rw [ih _ hnd2 hdis2]
    simp [fnRowsOf]

theorem insertCallsForNode_noFail (callees : List String) :
    ∀ (tx : DB) (caller : String), caller ∈ fnNames tx →
    (∀ c ∈ callees, c ∈ fnNames tx) →
    (∀ c ∈ callees, (caller, c) ∉ tx.calls) → callees.Nodup →
    insertCallsForNode noFail caller tx callees =
      .ok { tx with calls := tx.calls ++ callees.map (fun c => (caller, c)) } := by
  induction callees with
  | nil => intro tx caller _ _ _ _; simp [insertCallsForNode]
  | cons c rest ih =>
    intro tx caller hcaller hfk hfresh hnd
    have hc : c ∈ fnNames tx := hfk c (by simp)
    have hcm : (caller, c) ∉ tx.calls := hfresh c (by simp)
    have hrow : insertCallRow noFail tx caller c =
        .ok { tx with calls := tx.calls ++ [(caller, c)] } := by
      simp [insertCallRow, noFail, hcaller, hc, hcm]
    have hstep : insertCallsForNode noFail caller tx (c :: rest) =
        insertCallsForNode noFail caller { tx with calls := tx.calls ++ [(caller, c)] } rest := by
      simp [insertCallsForNode, hrow]
    rw [hstep]
    have hnd2 : rest.Nodup := (List.nodup_cons.mp hnd).2
    have hcnot : c ∉ rest := (List.nodup_cons.mp hnd).1
    rw [ih _ caller (by simpa [fnNames] using hcaller)
      (fun x hx => by simpa [fnNames] using hfk x (by simp [hx]))
      (fun x hx => by
        intro hm
        rcases List.mem_append.mp hm with hm | hm
        · exact hfresh x (by simp [hx]) hm
        · have : x = c := by simpa using hm
          exact hcnot (this ▸ hx))
      hnd2]
    simp

theorem insertCallsLoop_noFail (g : List (String × FunctionNode)) :
    ∀ tx : DB, nodupKeys g →
    (∀ p ∈ g, p.1 ∈ fnNames tx) →
    (∀ p ∈ g, ∀ c ∈ p.2.callees, c ∈ fnNames tx) →
    dupFreeCallees g →
    (∀ p ∈ g, ∀ c ∈ p.2.callees, (p.1, c) ∉ tx.calls) →
    insertCallsLoop noFail tx g = .ok { tx with calls := tx.calls ++ edgesOf g } := by
  induction g with
  | nil => intro tx _ _ _ _ _; simp [insertCallsLoop, edgesOf]
  | cons hd tl ih =>
    intro tx hnd hcallers hfk hdup hfresh
    obtain ⟨caller, node⟩ := hd
    have hnode : insertCallsForNode noFail caller tx node.callees =
        .ok { tx with calls := tx.calls ++ node.callees.map (fun c => (caller, c)) } := by
      apply insertCallsForNode_noFail node.callees tx caller
        (hcallers (caller, node) (List.mem_cons_self _ _))
        (fun c hc => hfk (caller, node) (List.mem_cons_self _ _) c hc)
        (fun c hc => hfresh (caller, node) (List.mem_cons_self _ _) c hc)
        (hdup (caller, node) (List.mem_cons_self _ _))
    have hstep : insertCallsLoop noFail tx ((caller, node) :: tl) =
        insertCallsLoop noFail
          { tx with calls := tx.calls ++ node.callees.map (fun c => (caller, c)) } tl := by
      simp [insertCallsLoop, hnode]
    rw [hstep]
    have hnd2 : nodupKeys tl := by
      have := hnd
      simp only [nodupKeys, keysOf, List.map_cons, List.nodup_cons] at this
      exact this.2
    have hcnot : caller ∉ keysOf tl := by
      have := hnd
      simp only [nodupKeys, keysOf, List.map_cons, List.nodup_cons] at this
      exact this.1
    rw [ih _ hnd2
      (fun p hp => by
        simpa [fnNames] using hcallers p (List.mem_cons_of_mem _ hp))
      (fun p hp c hc => by
        simpa [fnNames] using hfk p (List.mem_cons_of_mem _ hp) c hc)
      (fun p hp => hdup p (List.mem_cons_of_mem _ hp))
      (fun p hp c hc => by
        intro hm
        rcases List.mem_append.mp hm with hm | hm
        · exact hfresh p (List.mem_cons_of_mem _ hp) c hc hm
        · rcases List.mem_map.mp hm with ⟨x, _, hx⟩
          have hpc : p.1 = caller := by
            have := congrArg Prod.fst hx
            simpa using this.symm
          exact hcnot (hpc ▸ List.mem_map_of_mem (·.1) hp))]
    simp [edgesOf_cons]

theorem saveGraphTx_noFail (db : DB) (g : List (String × FunctionNode))
    (h1 : nodupKeys g) (h2 : closedWorld g) (h3 : dupFreeCallees g) :
    saveGraphTx noFail db g = .ok ⟨fnRowsOf g, edgesOf g⟩ := by
  have htx2 : ({ { db with calls := [] } with functions := [] } : DB)
      = (⟨[], []⟩ : DB) := rfl
  have hfn : insertFunctionsLoop noFail (⟨[], []⟩ : DB) g
      = .ok ⟨fnRowsOf g, []⟩ := by
    have := insertFunctionsLoop_noFail g (⟨[], []⟩ : DB) h1
      (by intro k _; simp [fnNames])
    simpa using this
  have hkeys : fnNames (⟨fnRowsOf g, []⟩ : DB) = keysOf g := by
    simp [fnNames]
    exact names_fnRowsOf g
  have hcalls : insertCallsLoop noFail (⟨fnRowsOf g, []⟩ : DB) g
      = .ok ⟨fnRowsOf g, edgesOf g⟩ := by
    have := insertCallsLoop_noFail g (⟨fnRowsOf g, []⟩ : DB) h1
      (fun p hp => by rw [hkeys]; exact List.mem_map_of_mem (·.1) hp)
      (fun p hp c hc => by rw [hkeys]; exact h2 p hp c hc)
      h3
      (fun p _ c _ => by simp)
    simpa using this
  have hred : saveGraphTx noFail db g =
      match insertFunctionsLoop noFail (⟨[], []⟩ : DB) g with
      | .error e => .error e
      | .ok tx3 => insertCallsLoop noFail tx3 g := rfl
  rw [hred, hfn]
  exact hcalls

theorem saveGraph_noFail (db : DB) (g : List (String × FunctionNode))
    (h1 : nodupKeys g) (h2 : closedWorld g) (h3 : dupFreeCallees g) :
    saveGraph noFail db g = (⟨fnRowsOf g, edgesOf g⟩, none) := by
  unfold saveGraph
  rw [saveGraphTx_noFail db g h1 h2 h3]
  simp [noFail]

theorem callsTo_nil (k : String) : callsTo [] k = [] := rfl

theorem callsTo_cons (e : String × String) (rest : List (String × String)) (k : String) :
    callsTo (e :: rest) k =
      if e.1 = k then e.2 :: callsTo rest k else callsTo rest k := by
  by_cases h : e.1 = k <;> simp [callsTo, h]

theorem alookup_loadEdgeStep (m : List (String × FunctionNode)) (e : String × String)
    (k : String) :
    alookup (loadEdgeStep m e) k =
      if e.1 = k then
        (alookup m k).map (fun n => { n with callees := n.callees ++ [e.2] })
      else alookup m k := by
  obtain ⟨a, b⟩ := e
  unfold loadEdgeStep
  cases ha : alookup m a with
  | none =>
    by_cases hk : a = k
    · subst hk
      rw [ha]
      simp
    · simp [hk]
  | some node =>
    rw [alookup_mapSet]
    by_cases hk : a = k
    · subst hk
      rw [ha]
      simp
    · simp [hk]

theorem alookup_foldl_loadEdgeStep (calls : List (String × String)) :
    ∀ (m : List (String × FunctionNode)) (k : String),
    alookup (calls.foldl loadEdgeStep m) k =
      (alookup m k).map (fun node => { node with callees := node.callees ++ callsTo calls k }) := by
  induction calls with
  | nil =>
    intro m k
    rw [callsTo_nil]
    have hfold : ([] : List (String × String)).foldl loadEdgeStep m = m := rfl
    rw [hfold]
    cases alookup m k <;> simp
  | cons e rest ih =>
    intro m k
    obtain ⟨a, b⟩ := e
    have hfold : ((a, b) :: rest).foldl loadEdgeStep m = rest.foldl loadEdgeStep (loadEdgeStep m (a, b)) := rfl
    rw [hfold, ih, alookup_loadEdgeStep, callsTo_cons]
    by_cases hk : a = k
    · subst hk
      cases alookup m a <;> simp
    · simp [hk]

theorem foldl_loadFnStep (rows : List FnRow) :
    ∀ m : List (String × FunctionNode), (rows.map (·.name)).Nodup →
    (∀ r ∈ rows, r.name ∉ keysOf m) →
    rows.foldl loadFnStep m =
      m ++ rows.map (fun r => (r.name,
        { callees := [], signature := r.signature, definition := r.definition })) := by
  induction rows with
  | nil => intro m _ _; simp
  | cons r rest ih =>
    intro m hnd hfresh
    have hr : r.name ∉ keysOf m := hfresh r (List.mem_cons_self _ _)
    have hstep : loadFnStep m r =
        m ++ [(r.name, { callees := [], signature := r.signature, definition := r.definition })] :=
      mapSet_of_not_mem m r.name _ hr
    have hfold : (r :: rest).foldl loadFnStep m = rest.foldl loadFnStep (loadFnStep m r) := rfl
    rw [hfold, hstep, ih _ ((List.nodup_cons.mp (by simpa using hnd)).2)]
    · simp
    · intro x hx
      rw [keysOf_append]
      intro hmem
      rcases List.mem_append.mp hmem with hm | hm
      · exact hfresh x (List.mem_cons_of_mem _ hx) hm
      · have hxname : x.name = r.name := by simpa [keysOf] using hm
        have : x.name ∈ rest.map (·.name) := List.mem_map_of_mem (·.name) hx
        rw [hxname] at this
        exact (List.nodup_cons.mp (by simpa using hnd)).1 this

theorem alookup_map_value {α β : Type} (f : α → β) (m : List (String × α)) (k : String) :
    alookup (m.map (fun p => (p.1, f p.2))) k = (alookup m k).map f := by
  induction m with
  | nil => simp [alookup]
  | cons hd tl ih =>
    obtain ⟨k1, v1⟩ := hd
    by_cases h : k1 = k <;> simp [alookup, h, ih]

theorem callsTo_edgesOf (g : List (String × FunctionNode)) :
    ∀ (k : String) (node : FunctionNode), nodupKeys g → alookup g k = some node →
    callsTo (edgesOf g) k = node.callees := by
  induction g with
  | nil => intro k node _ h; simp [alookup] at h
  | cons hd tl ih =>
    intro k node hnd hl
    obtain ⟨n, nd⟩ := hd
    have hnd2 : nodupKeys tl := by
      have := hnd
      simp only [nodupKeys, keysOf, List.map_cons, List.nodup_cons] at this
      exact this.2
    have hnmem : n ∉ keysOf tl := by
      have := hnd
      simp only [nodupKeys, keysOf, List.map_cons, List.nodup_cons] at this
      exact this.1
    have happ : callsTo (edgesOf ((n, nd) :: tl)) k =
        callsTo (nd.callees.map (fun c => (n, c))) k ++ callsTo (edgesOf tl) k := by
      rw [edgesOf_cons]
      simp [callsTo]
    rw [happ]
    by_cases hk : n = k
    · subst hk
      have hnode : node = nd := by
        simp [alookup] at hl
        exact hl.symm
      rw [hnode]
      have h1 : callsTo (nd.callees.map (fun c => (n, c))) n = nd.callees := by
        unfold callsTo
        rw [List.filter_eq_self.mpr (by
          intro e he
          rcases List.mem_map.mp he with ⟨c, _, hc⟩
          simp [← hc])]
        simp [List.map_map, Function.comp]
      have h2 : callsTo (edgesOf tl) n = [] := by
        unfold callsTo
        rw [List.filter_eq_nil_iff.mpr (by
          intro e he
          have : e.1 ∈ keysOf tl := mem_edgesOf_fst tl e he
          simp only [beq_iff_eq]
          intro heq
          exact hnmem (heq ▸ this))]
        rfl
      rw [h1, h2, List.append_nil]
    · have h1 : callsTo (nd.callees.map (fun c => (n, c))) k = [] := by
        unfold callsTo
        rw [List.filter_eq_nil_iff.mpr (by
          intro e he
          rcases List.mem_map.mp he with ⟨c, _, hc⟩
          simp only [beq_iff_eq]
          intro heq
          exact hk (by rw [← heq, ← hc]))]
        rfl
      have hl2 : alookup tl k = some node := by
        simpa [alookup, hk] using hl
      rw [h1, ih k node hnd2 hl2]
      simp

theorem loadGraph_fnRows_edges (g : List (String × FunctionNode)) (k : String)
    (h1 : nodupKeys g) :
    alookup (loadGraph ⟨fnRowsOf g, edgesOf g⟩) k = alookup g k := by
  unfold loadGraph
  have hnames : ((fnRowsOf g).map (·.name)).Nodup := by
    rw [names_fnRowsOf]; exact h1
  have hg0 : (fnRowsOf g).foldl loadFnStep [] =
      (fnRowsOf g).map (fun r => (r.name,
        { callees := [], signature := r.signature, definition := r.definition })) := by
    rw [foldl_loadFnStep (fnRowsOf g) [] hnames (by intro r _; simp [keysOf])]
    simp
  have hg0m : (fnRowsOf g).map (fun r => ((r.name : String),
      ({ callees := [], signature := r.signature, definition := r.definition } : FunctionNode))) =
      g.map (fun p => (p.1,
        ({ callees := [], signature := p.2.signature, definition := p.2.definition } : FunctionNode))) := by
    simp [fnRowsOf, List.map_map]
  rw [hg0, hg0m, alookup_foldl_loadEdgeStep]
  have hmv : alookup (g.map (fun p => (p.1,
      ({ callees := [], signature := p.2.signature, definition := p.2.definition } : FunctionNode)))) k =
      (alookup g k).map (fun nd =>
        ({ callees := [], signature := nd.signature, definition := nd.definition } : FunctionNode)) :=
    alookup_map_value
      (fun v : FunctionNode =>
        ({ callees := [], signature := v.signature, definition := v.definition } : FunctionNode))
      g k
  rw [hmv]
  cases hl : alookup g k with
  | none => simp
  | some node =>
    simp only [Option.map_some]
    rw [callsTo_edgesOf g k node h1 hl]
    simp

theorem loadGraph_saveGraph (db : DB) (g : List (String × FunctionNode)) (k : String)
    (h1 : nodupKeys g) (h2 : closedWorld g) (h3 : dupFreeCallees g) :
    alookup (loadGraph ((saveGraph noFail db g).1)) k = alookup g k := by
  rw [saveGraph_noFail db g h1 h2 h3]
  exact loadGraph_fnRows_edges g k h1

/-- C1: Save-then-Load is a round trip.  For every graph `G` satisfying the
invariants — unique keys (intrinsic to a Go map), every callee a key
(closed world), callee lists duplicate-free — `SaveGraph` under a
failure-free driver succeeds, and `LoadGraph` then returns a map with
exactly the same key set and the same signature and definition per key,
and per-caller callee lists equal as sets (order not required to match;
here they are in fact equal as lists). -/
theorem saveGraph_then_loadGraph_roundtrip (db : DB) (g : List (String × FunctionNode))
    (h1 : nodupKeys g) (h2 : closedWorld g) (h3 : dupFreeCallees g) :
    (saveGraph noFail db g).2 = none ∧
    (∀ k, k ∈ keysOf (loadGraph ((saveGraph noFail db g).1)) ↔ k ∈ keysOf g) ∧
    (∀ k node, alookup g k = some node →
      ∃ node2, alookup (loadGraph ((saveGraph noFail db g).1)) k = some node2 ∧
        node2.signature = node.signature ∧ node2.definition = node.definition ∧
        (∀ c, c ∈ node2.callees ↔ c ∈ node.callees)) := by
  refine ⟨?_, ?_, ?_⟩
  · rw [saveGraph_noFail db g h1 h2 h3]
  · intro k
    rw [← alookup_isSome_iff, ← alookup_isSome_iff, loadGraph_saveGraph db g k h1 h2 h3]
  · intro k node hl
    refine ⟨node, ?_, rfl, rfl, fun c => Iff.rfl⟩
    rw [loadGraph_saveGraph db g k h1 h2 h3]
    exact hl

/-- C1 witness: the example graph satisfies the invariants and its save
succeeds on an empty store. -/
theorem saveGraph_then_loadGraph_roundtrip_witness :
    nodupKeys exampleGraph ∧ closedWorld exampleGraph ∧ dupFreeCallees exampleGraph ∧
    (saveGraph noFail ⟨[], []⟩ exampleGraph).2 = none :=
  ⟨by decide, by decide, by decide,
    (saveGraph_then_loadGraph_roundtrip ⟨[], []⟩ exampleGraph
      (by decide) (by decide) (by decide)).1⟩

/-!
## Deduplication of edges by the `calls` primary key (C9)

On every successful save the `calls` table is duplicate-free: the
`INSERT OR IGNORE` skips any row whose `(caller, callee)` primary key is
already present.  `LoadGraph` therefore always rebuilds duplicate-free
callee lists.
-/

theorem callsTo_nodup (calls : List (String × String)) (k : String)
    (h : calls.Nodup) : (callsTo calls k).Nodup := by
  unfold callsTo
  apply List.Nodup.map_on
  · intro x hx y hy hxy
    have hx1 : x.1 = k := by
      have := (List.mem_filter.mp hx).2
      simpa using this
    have hy1 : y.1 = k := by
      have := (List.mem_filter.mp hy).2
      simpa using this
    exact Prod.ext (hx1.trans hy1.symm) hxy
  · exact h.filter _

theorem insertCallRow_ok_nodup (fs : FailSpec) (tx tx1 : DB) (a b : String)
    (h : insertCallRow fs tx a b = .ok tx1) (hnd : tx.calls.Nodup) : tx1.calls.Nodup := by
  unfold insertCallRow at h
  split at h
  · exact absurd h (by simp)
  · split at h
    · exact absurd h (by simp)
    · split at h
      · cases h
        exact hnd
      · rename_i hfresh
        cases h
        simp only [List.nodup_append, List.nodup_cons, List.nodup_nil]
        refine ⟨hnd, by simp, ?_⟩
        intro x hx hx2
        have : x = (a, b) := by simpa using hx2
        exact hfresh (this ▸ hx)

theorem insertCallsForNode_ok_nodup (fs : FailSpec) (callees : List String) :
    ∀ (tx tx1 : DB) (caller : String),
    insertCallsForNode fs caller tx callees = .ok tx1 → tx.calls.Nodup → tx1.calls.Nodup := by
  induction callees with
  | nil =>
    intro tx tx1 caller h hnd
    unfold insertCallsForNode at h
    cases h
    exact hnd
  | cons c rest ih =>
    intro tx tx1 caller h hnd
    unfold insertCallsForNode at h
    cases hrow : insertCallRow fs tx caller c with
    | error e => rw [hrow] at h; exact absurd h (by simp)
    | ok tx2 =>
      rw [hrow] at h
      exact ih tx2 tx1 caller h (insertCallRow_ok_nodup fs tx tx2 caller c hrow hnd)

theorem insertCallsLoop_ok_nodup (fs : FailSpec) (g : List (String × FunctionNode)) :
    ∀ tx tx1 : DB, insertCallsLoop fs tx g = .ok tx1 → tx.calls.Nodup → tx1.calls.Nodup := by
  induction g with
  | nil =>
    intro tx tx1 h hnd
    unfold insertCallsLoop at h
    cases h
    exact hnd
  | cons hd tl ih =>
    intro tx tx1 h hnd
    obtain ⟨caller, node⟩ := hd
    unfold insertCallsLoop at h
    cases hrow : insertCallsForNode fs caller tx node.callees with
    | error e => rw [hrow] at h; exact absurd h (by simp)
    | ok tx2 =>
      rw [hrow] at h
      exact ih tx2 tx1 h (insertCallsForNode_ok_nodup fs node.callees tx tx2 caller hrow hnd)

theorem insertFunctionsLoop_ok_calls (fs : FailSpec) (g : List (String × FunctionNode)) :
    ∀ tx tx1 : DB, insertFunctionsLoop fs tx g = .ok tx1 → tx1.calls = tx.calls := by
  induction g with
  | nil =>
    intro tx tx1 h
    unfold insertFunctionsLoop at h
    cases h
    rfl
  | cons hd tl ih =>
    intro tx tx1 h
    obtain ⟨name, node⟩ := hd
    unfold insertFunctionsLoop at h
    split at h
    · exact absurd h (by simp)
    · split at h
      · exact absurd h (by simp)
      · have := ih
          { tx with functions :=
              tx.functions ++ [⟨name, node.signature, node.definition⟩] } tx1 h
        simpa using this

theorem saveGraphTx_ok_calls_nodup (fs : FailSpec) (db : DB)
    (g : List (String × FunctionNode)) (tx : DB)
    (h : saveGraphTx fs db g = .ok tx) : tx.calls.Nodup := by
  unfold saveGraphTx at h
  split at h
  · exact absurd h (by simp)
  · split at h
    · exact absurd h (by simp)
    · split at h
      · exact absurd h (by simp)
      · split at h
        · exact absurd h (by simp)
        · split at h
          · exact absurd h (by simp)
          · have h2 : (match insertFunctionsLoop fs (⟨[], []⟩ : DB) g with
                | Except.error e => Except.error e
                | Except.ok tx3 => insertCallsLoop fs tx3 g) = Except.ok tx := h
            cases hfn : insertFunctionsLoop fs (⟨[], []⟩ : DB) g with
            | error e =>
              rw [hfn] at h2
              exact absurd h2 (by simp)
            | ok tx3 =>
              rw [hfn] at h2
              have h3 : tx3.calls = [] := by
                simpa using insertFunctionsLoop_ok_calls fs g (⟨[], []⟩ : DB) tx3 hfn
              exact insertCallsLoop_ok_nodup fs g tx3 tx h2
                (by rw [h3]; exact List.nodup_nil)

theorem alookup_foldl_loadFnStep_callees (rows : List FnRow) :
    ∀ (m : List (String × FunctionNode)) (k : String) (node : FunctionNode),
    (∀ (k0 : String) (n0 : FunctionNode), alookup m k0 = some n0 → n0.callees = []) →
    alookup (rows.foldl loadFnStep m) k = some node → node.callees = [] := by
  induction rows with
  | nil =>
    intro m k node hm h
    exact hm k node h
  | cons r rest ih =>
    intro m k node hm h
    have hfold : (r :: rest).foldl loadFnStep m = rest.foldl loadFnStep (loadFnStep m r) := rfl
    rw [hfold] at h
    refine ih (loadFnStep m r) k node ?_ h
    intro k0 n0 h0
    unfold loadFnStep at h0
    rw [alookup_mapSet] at h0
    by_cases hk : r.name = k0
    · rw [if_pos hk] at h0
      cases h0
      rfl
    · rw [if_neg hk] at h0
      exact hm k0 n0 h0

/-- C9: Load-after-Save yields duplicate-free callee lists.  Whenever
`SaveGraph` succeeds — on any input graph, including one whose callee lists
contain duplicate entries for the same (caller, callee) pair — the
composite primary key on `calls` together with the insert-or-ignore edge
insert leaves a duplicate-free `calls` table, so every node returned by
`LoadGraph` has a duplicate-free callee list. -/
theorem loadGraph_after_saveGraph_dedup (fs : FailSpec) (db : DB)
    (g : List (String × FunctionNode)) (h : (saveGraph fs db g).2 = none) :
    ∀ (k : String) (node : FunctionNode),
    alookup (loadGraph ((saveGraph fs db g).1)) k = some node → node.callees.Nodup := by
  intro k node hl
  unfold saveGraph at h hl
  cases htx : saveGraphTx fs db g with
  | error e =>
    rw [htx] at h
    simp at h
  | ok tx =>
    rw [htx] at h hl
    have h2 : (if fs.commitFail = true then (db, some "commit tx") else (tx, none)).2
        = none := h
    have hl2 : alookup
        (loadGraph ((if fs.commitFail = true then (db, some "commit tx") else (tx, none)).1))
        k = some node := hl
    by_cases hc : fs.commitFail
    · rw [if_pos hc] at h2
      simp at h2
    · rw [if_neg hc] at hl2
      have hl : alookup (loadGraph tx) k = some node := hl2
      unfold loadGraph at hl
      rw [alookup_foldl_loadEdgeStep] at hl
      cases hg0 : alookup (tx.functions.foldl loadFnStep []) k with
      | none => rw [hg0] at hl; simp at hl
      | some node0 =>
        rw [hg0] at hl
        have hl4 : { node0 with callees := node0.callees ++ callsTo tx.calls k } = node :=
          Option.some.inj hl
        have hempty : node0.callees = [] :=
          alookup_foldl_loadFnStep_callees tx.functions [] k node0
            (by intro k0 n0 h0; simp [alookup] at h0) hg0
        have hnd : tx.calls.Nodup := saveGraphTx_ok_calls_nodup fs db g tx htx
        rw [← hl4]
        show (node0.callees ++ callsTo tx.calls k).Nodup
        rw [hempty]
        simpa using callsTo_nodup tx.calls k hnd

/-- C9 witness: saving a graph with a duplicated (caller, callee) pair
succeeds and the reloaded callee list contains the edge once. -/
theorem loadGraph_after_saveGraph_dedup_witness :
    (saveGraph noFail ⟨[], []⟩ dupEdgeGraph).2 = none ∧
    alookup (loadGraph ((saveGraph noFail ⟨[], []⟩ dupEdgeGraph).1)) "a" =
      some { callees := ["b"], signature := "sa", definition := "da" } ∧
    (FunctionNode.mk ["b"] "sa" "da").callees.Nodup :=
  ⟨by decide, by decide,
    loadGraph_after_saveGraph_dedup noFail ⟨[], []⟩ dupEdgeGraph (by decide) "a"
      { callees := ["b"], signature := "sa", definition := "da" } (by decide)⟩

theorem foldl_files_eq {β : Type} (step : β → GoDecl → β) (files : List GoFile) :
    ∀ init : β, files.foldl (fun g f => f.foldl step g) init = (declsOf files).foldl step init := by
  induction files with
  | nil => intro init; simp [declsOf]
  | cons f rest ih =>
    intro init
    have hdecls : declsOf (f :: rest) = f ++ declsOf rest := by
      simp [declsOf]
    rw [hdecls, List.foldl_append, List.foldl_cons]
    exact ih (f.foldl step init)

theorem namesOf_eq (files : List GoFile) :
    namesOf files = (declsOf files).map (·.name) := by
  induction files with
  | nil => simp [namesOf, declsOf]
  | cons f rest ih =>
    have h1 : namesOf (f :: rest) = f.map (·.name) ++ namesOf rest := by
      simp [namesOf]
    have h2 : declsOf (f :: rest) = f ++ declsOf rest := by
      simp [declsOf]
    rw [h1, h2, List.map_append, ih]

theorem rawLookup_addEdge (g : List (String × List String)) (caller callee k : String) :
    rawLookup (addEdge g caller callee) k =
      if caller = k then rawLookup g k ++ [callee] else rawLookup g k := by
  unfold addEdge rawLookup
  rw [alookup_mapSet]
  by_cases h : caller = k <;> simp [h]

theorem rawLookup_appendEdges (callees : List String) :
    ∀ (g : List (String × List String)) (caller k : String),
    rawLookup (appendEdges g caller callees) k =
      if caller = k then rawLookup g k ++ callees else rawLookup g k := by
  induction callees with
  | nil =>
    intro g caller k
    by_cases h : caller = k <;> simp [appendEdges, h]
  | cons c rest ih =>
    intro g caller k
    have hfold : appendEdges g caller (c :: rest) =
        appendEdges (addEdge g caller c) caller rest := rfl
    rw [hfold, ih, rawLookup_addEdge]
    by_cases h : caller = k <;> simp [h]

theorem mem_foldl_dedup (names : List String) (xs : List String) :
    ∀ (acc : List String) (c : String),
    c ∈ xs.foldl (fun acc2 x => if x ∈ names ∧ x ∉ acc2 then acc2 ++ [x] else acc2) acc ↔
      c ∈ acc ∨ (c ∈ xs ∧ c ∈ names) := by
  induction xs with
  | nil => intro acc c; simp
  | cons x rest ih =>
    intro acc c
    rw [List.foldl_cons]
    by_cases hx : x ∈ names ∧ x ∉ acc
    · rw [if_pos hx, ih]
      constructor
      · rintro (hc | ⟨hc1, hc2⟩)
        · rcases List.mem_append.mp hc with hc | hc
          · exact Or.inl hc
          · have hcx : c = x := by simpa using hc
            exact Or.inr ⟨by simp [hcx], hcx ▸ hx.1⟩
        · exact Or.inr ⟨by simp [hc1], hc2⟩
      · rintro (hc | ⟨hc1, hc2⟩)
        · exact Or.inl (List.mem_append.mpr (Or.inl hc))
        · rcases List.mem_cons.mp hc1 with hc1 | hc1
          · exact Or.inl (List.mem_append.mpr (Or.inr (by simp [hc1])))
          · exact Or.inr ⟨hc1, hc2⟩
    · rw [if_neg hx, ih]
      constructor
      · rintro (hc | ⟨hc1, hc2⟩)
        · exact Or.inl hc
        · exact Or.inr ⟨List.mem_cons_of_mem _ hc1, hc2⟩
      · rintro (hc | ⟨hc1, hc2⟩)
        · exact Or.inl hc
        · rcases List.mem_cons.mp hc1 with hc1 | hc1
          · subst hc1
            rcases Decidable.not_and_iff_or_not.mp hx with hx1 | hx1
            · exact absurd hc2 hx1
            · exact Or.inl (Decidable.not_not.mp hx1)
          · exact Or.inr ⟨hc1, hc2⟩

theorem mem_dedupKeep (names xs : List String) (c : String) :
    c ∈ dedupKeep names xs ↔ c ∈ xs ∧ c ∈ names := by
  unfold dedupKeep
  rw [mem_foldl_dedup]
  simp

theorem nodup_foldl_dedup (names : List String) (xs : List String) :
    ∀ acc : List String, acc.Nodup →
    (xs.foldl (fun acc2 x => if x ∈ names ∧ x ∉ acc2 then acc2 ++ [x] else acc2) acc).Nodup := by
  induction xs with
  | nil => intro acc h; simpa using h
  | cons x rest ih =>
    intro acc h
    rw [List.foldl_cons]
    by_cases hx : x ∈ names ∧ x ∉ acc
    · rw [if_pos hx]
      refine ih _ ?_
      simp only [List.nodup_append, List.nodup_cons, List.nodup_nil]
      refine ⟨h, by simp, ?_⟩
      intro y hy hy2
      have : y = x := by simpa using hy2
      exact hx.2 (this ▸ hy)
    · rw [if_neg hx]
      exact ih _ h

theorem nodup_dedupKeep (names xs : List String) : (dedupKeep names xs).Nodup :=
  nodup_foldl_dedup names xs [] List.nodup_nil

theorem count_dedupKeep (names xs : List String) (c : String) :
    (dedupKeep names xs).count c = if c ∈ xs ∧ c ∈ names then 1 else 0 := by
  by_cases h : c ∈ xs ∧ c ∈ names
  · rw [if_pos h]
    exact List.count_eq_one_of_mem (nodup_dedupKeep names xs) ((mem_dedupKeep names xs c).mpr h)
  · rw [if_neg h]
    have : c ∉ dedupKeep names xs := fun hc => h ((mem_dedupKeep names xs c).mp hc)
    simpa using List.count_eq_zero.mpr this

theorem mem_of_mem_mapSet {α : Type} (m : List (String × α)) (k : String) (v : α)
    (q : String × α) (h : q ∈ mapSet m k v) : q ∈ m ∨ q = (k, v) := by
  induction m with
  | nil => simpa [mapSet] using h
  | cons hd tl ih =>
    obtain ⟨k1, v1⟩ := hd
    by_cases h1 : k1 = k
    · subst h1
      rcases List.mem_cons.mp (by simpa [mapSet] using h) with hq | hq
      · exact Or.inr hq
      · exact Or.inl (List.mem_cons_of_mem _ hq)
    · rcases List.mem_cons.mp (by simpa [mapSet, h1] using h) with hq | hq
      · exact Or.inl (by simp [hq])
      · rcases ih hq with hq2 | hq2
        · exact Or.inl (List.mem_cons_of_mem _ hq2)
        · exact Or.inr hq2

theorem mem_keysOf_assemble_fold (raw : List (String × List String))
    (details : List (String × FuncDetail)) :
    ∀ (out : List (String × FunctionNode)) (k : String),
    k ∈ keysOf (details.foldl (fun out2 p =>
      mapSet out2 p.1 { callees := (alookup raw p.1).getD [], signature := p.2.signature,
                        definition := p.2.definition }) out) ↔
    k ∈ keysOf out ∨ k ∈ keysOf details := by
  induction details with
  | nil => intro out k; simp [keysOf]
  | cons p rest ih =>
    intro out k
    rw [List.foldl_cons, ih, mem_keysOf_mapSet, keysOf_cons, List.mem_cons]
    tauto

theorem mem_keysOf_assembleGraph (details : List (String × FuncDetail))
    (raw : List (String × List String)) (k : String) :
    k ∈ keysOf (assembleGraph details raw) ↔ k ∈ keysOf details := by
  unfold assembleGraph
  rw [mem_keysOf_assemble_fold]
  simp [keysOf]

theorem alookup_assemble_fold (raw : List (String × List String))
    (details : List (String × FuncDetail)) :
    ∀ (out : List (String × FunctionNode)) (k : String), nodupKeys details →
    (∀ p ∈ details, p.1 ∉ keysOf out) →
    alookup (details.foldl (fun out2 p =>
      mapSet out2 p.1 { callees := (alookup raw p.1).getD [], signature := p.2.signature,
                        definition := p.2.definition }) out) k =
      match alookup details k with
      | some det => some { callees := (alookup raw k).getD [], signature := det.signature,
                           definition := det.definition }
      | none => alookup out k := by
  induction details with
  | nil => intro out k _ _; simp [alookup]
  | cons p rest ih =>
    intro out k hnd hfresh
    have hnd2 : nodupKeys rest := by
      have := hnd
      simp only [nodupKeys, keysOf, List.map_cons, List.nodup_cons] at this
      exact this.2
    have hp1 : p.1 ∉ keysOf rest := by
      have := hnd
      simp only [nodupKeys, keysOf, List.map_cons, List.nodup_cons] at this
      exact this.1
    have hfresh2 : ∀ q ∈ rest, q.1 ∉ keysOf (mapSet out p.1
        { callees := (alookup raw p.1).getD [], signature := p.2.signature,
          definition := p.2.definition }) := by
      intro q hq hmem
      rcases (mem_keysOf_mapSet out p.1 q.1 _).mp hmem with hmem | hmem
      · exact hfresh q (List.mem_cons_of_mem _ hq) hmem
      · exact hp1 (hmem ▸ List.mem_map_of_mem (·.1) hq)
    rw [List.foldl_cons, ih _ k hnd2 hfresh2]
    by_cases hk : p.1 = k
    · have hrest : alookup rest k = none :=
        (alookup_eq_none_iff rest k).mpr (hk ▸ hp1)
      rw [hrest]
      have hhead : alookup (p :: rest) k = some p.2 := by
        obtain ⟨p1, p2⟩ := p
        simp only [alookup]
        rw [if_pos hk]
      rw [hhead, alookup_mapSet, if_pos hk, hk]
    · have hhead : alookup (p :: rest) k = alookup rest k := by
        obtain ⟨p1, p2⟩ := p
        simp only [alookup]
        rw [if_neg hk]
      rw [hhead]
      cases halk : alookup rest k with
      | some det => rfl
      | none => rw [alookup_mapSet, if_neg hk]

theorem alookup_assembleGraph (details : List (String × FuncDetail))
    (raw : List (String × List String)) (hnd : nodupKeys details) (k : String) :
    alookup (assembleGraph details raw) k =
      (alookup details k).map (fun det =>
        { callees := (alookup raw k).getD [], signature := det.signature,
          definition := det.definition }) := by
  unfold assembleGraph
  rw [alookup_assemble_fold raw details [] k hnd (by intro p _; simp [keysOf])]
  cases alookup details k <;> simp [alookup]

theorem callees_assemble_fold (raw : List (String × List String))
    (details : List (String × FuncDetail)) :
    ∀ out : List (String × FunctionNode),
    (∀ q ∈ out, q.2.callees = rawLookup raw q.1) →
    ∀ q ∈ details.foldl (fun out2 p =>
      mapSet out2 p.1 { callees := (alookup raw p.1).getD [], signature := p.2.signature,
                        definition := p.2.definition }) out,
    q.2.callees = rawLookup raw q.1 := by
  induction details with
  | nil => intro out h; exact h
  | cons p rest ih =>
    intro out h
    rw [List.foldl_cons]
    refine ih _ ?_
    intro q hq
    rcases mem_of_mem_mapSet out p.1 _ q hq with hq2 | hq2
    · exact h q hq2
    · rw [hq2]
      rfl

theorem callees_of_mem_assembleGraph (details : List (String × FuncDetail))
    (raw : List (String × List String)) (q : String × FunctionNode)
    (h : q ∈ assembleGraph details raw) : q.2.callees = rawLookup raw q.1 := by
  unfold assembleGraph at h
  exact callees_assemble_fold raw details [] (by intro q2 hq2; simp at hq2) q h

theorem nodupKeys_assemble_fold (raw : List (String × List String))
    (details : List (String × FuncDetail)) :
    ∀ out : List (String × FunctionNode), nodupKeys out →
    nodupKeys (details.foldl (fun out2 p =>
      mapSet out2 p.1 { callees := (alookup raw p.1).getD [], signature := p.2.signature,
                        definition := p.2.definition }) out) := by
  induction details with
  | nil => intro out h; exact h
  | cons p rest ih =>
    intro out h
    rw [List.foldl_cons]
    exact ih _ (nodup_keysOf_mapSet out p.1 _ h)

theorem nodupKeys_assembleGraph (details : List (String × FuncDetail))
    (raw : List (String × List String)) : nodupKeys (assembleGraph details raw) := by
  unfold assembleGraph
  exact nodupKeys_assemble_fold raw details [] (by simp [nodupKeys, keysOf])

theorem extractDetails_eq_flat (files : List GoFile) :
    extractDetails files = (declsOf files).foldl
      (fun m d => mapSet m d.name ⟨d.signature, d.definition⟩) [] := by
  unfold extractDetails
  exact foldl_files_eq _ files []

theorem mem_keysOf_detfold (ds : List GoDecl) :
    ∀ (m : List (String × FuncDetail)) (k : String),
    k ∈ keysOf (ds.foldl (fun m2 d => mapSet m2 d.name ⟨d.signature, d.definition⟩) m) ↔
      k ∈ keysOf m ∨ k ∈ ds.map (·.name) := by
  induction ds with
  | nil => intro m k; simp
  | cons d rest ih =>
    intro m k
    rw [List.foldl_cons, ih, mem_keysOf_mapSet, List.map_cons, List.mem_cons]
    tauto

theorem mem_keysOf_extractDetails (files : List GoFile) (k : String) :
    k ∈ keysOf (extractDetails files) ↔ k ∈ namesOf files := by
  rw [extractDetails_eq_flat, mem_keysOf_detfold, namesOf_eq]
  simp [keysOf]

theorem find?_append_eq {α : Type} (l1 l2 : List α) (p : α → Bool) :
    (l1 ++ l2).find? p =
      match l1.find? p with
      | some x => some x
      | none => l2.find? p := by
  induction l1 with
  | nil => simp
  | cons x rest ih =>
    cases hx : p x <;> simp [List.find?, hx, ih]

theorem alookup_detfold (ds : List GoDecl) :
    ∀ (m : List (String × FuncDetail)) (n : String),
    alookup (ds.foldl (fun m2 d => mapSet m2 d.name ⟨d.signature, d.definition⟩) m) n =
      match ds.reverse.find? (fun d => d.name == n) with
      | some d => some ⟨d.signature, d.definition⟩
      | none => alookup m n := by
  induction ds with
  | nil => intro m n; simp
  | cons d rest ih =>
    intro m n
    rw [List.foldl_cons, ih]
    have hrev : (d :: rest).reverse = rest.reverse ++ [d] := by simp
    rw [hrev, find?_append_eq]
    cases hf : rest.reverse.find? (fun d2 => d2.name == n) with
    | some d2 => rfl
    | none =>
      by_cases hdn : d.name = n
      · have hbeq : (d.name == n) = true := by simp [hdn]
        simp [List.find?, hbeq, alookup_mapSet, hdn]
      · have hbeq : (d.name == n) = false := by simp [hdn]
        simp [List.find?, hbeq, alookup_mapSet, hdn]

theorem alookup_extractDetails (files : List GoFile) (n : String) :
    alookup (extractDetails files) n =
      (lastDeclNamed files n).map (fun d => (⟨d.signature, d.definition⟩ : FuncDetail)) := by
  rw [extractDetails_eq_flat, alookup_detfold]
  unfold lastDeclNamed
  cases hf : (declsOf files).reverse.find? (fun d => d.name == n) <;> simp [alookup]

theorem rawLookup_nil (k : String) : rawLookup [] k = [] := rfl

theorem rawLookup_processDeclLex_super (names : List String)
    (g : List (String × List String)) (d : GoDecl) (k c : String)
    (h : c ∈ rawLookup g k) : c ∈ rawLookup (processDeclLex names g d) k := by
  unfold processDeclLex
  cases hb : d.body with
  | none => exact h
  | some b =>
    rw [rawLookup_appendEdges]
    by_cases hk : d.name = k
    · rw [if_pos hk]
      exact List.mem_append.mpr (Or.inl h)
    · rw [if_neg hk]
      exact h

theorem rawLookup_processDeclLex_new (names : List String)
    (g : List (String × List String)) (d : GoDecl) (k c : String) (b : Expr)
    (hb : d.body = some b) (hk : d.name = k) (hc : c ∈ lexCallees names b) :
    c ∈ rawLookup (processDeclLex names g d) k := by
  unfold processDeclLex
  rw [hb, rawLookup_appendEdges, if_pos hk]
  exact List.mem_append.mpr (Or.inr hc)

theorem rawLookup_processDeclLex_cases (names : List String)
    (g : List (String × List String)) (d : GoDecl) (k c : String)
    (hc : c ∈ rawLookup (processDeclLex names g d) k) :
    c ∈ rawLookup g k ∨ (d.name = k ∧ ∃ b, d.body = some b ∧ c ∈ lexCallees names b) := by
  unfold processDeclLex at hc
  cases hb : d.body with
  | none =>
    rw [hb] at hc
    exact Or.inl hc
  | some b =>
    rw [hb, rawLookup_appendEdges] at hc
    by_cases hk : d.name = k
    · rw [if_pos hk] at hc
      rcases List.mem_append.mp hc with hc | hc
      · exact Or.inl hc
      · exact Or.inr ⟨hk, b, rfl, hc⟩
    · rw [if_neg hk] at hc
      exact Or.inl hc

theorem rawMem_fold_lex (names : List String) (ds : List GoDecl) :
    ∀ (g : List (String × List String)) (k c : String),
    c ∈ rawLookup (ds.foldl (processDeclLex names) g) k ↔
      c ∈ rawLookup g k ∨
        ∃ d ∈ ds, d.name = k ∧ ∃ b, d.body = some b ∧ c ∈ lexCallees names b := by
  induction ds with
  | nil => intro g k c; simp
  | cons d rest ih =>
    intro g k c
    rw [List.foldl_cons, ih]
    constructor
    · rintro (hc | ⟨d2, hd2, hrest⟩)
      · rcases rawLookup_processDeclLex_cases names g d k c hc with hc2 | ⟨hk, b, hb, hcb⟩
        · exact Or.inl hc2
        · exact Or.inr ⟨d, List.mem_cons_self _ _, hk, b, hb, hcb⟩
      · exact Or.inr ⟨d2, List.mem_cons_of_mem _ hd2, hrest⟩
    · rintro (hc | ⟨d2, hd2, hk, b, hb, hcb⟩)
      · exact Or.inl (rawLookup_processDeclLex_super names g d k c hc)
      · rcases List.mem_cons.mp hd2 with hd2 | hd2
        · exact Or.inl (rawLookup_processDeclLex_new names g d k c b
            (hd2 ▸ hb) (hd2 ▸ hk) hcb)
        · exact Or.inr ⟨d2, hd2, hk, b, hb, hcb⟩

theorem mem_rawLookup_extractCallGraph (names : List String) (files : List GoFile)
    (k c : String) :
    c ∈ rawLookup (extractCallGraph names files) k ↔
      ∃ d ∈ declsOf files, d.name = k ∧ ∃ b, d.body = some b ∧ c ∈ lexCallees names b := by
  unfold extractCallGraph
  rw [foldl_files_eq, rawMem_fold_lex]
  simp [rawLookup, alookup]

theorem rawSub_fold_lsp (names : List String) (ds : List GoDecl) :
    ∀ g : List (String × List String),
    (∀ k c, c ∈ rawLookup g k → c ∈ names) →
    ∀ k c, c ∈ rawLookup (ds.foldl (processDeclLSP names) g) k → c ∈ names := by
  induction ds with
  | nil => intro g h; exact h
  | cons d rest ih =>
    intro g h
    rw [List.foldl_cons]
    refine ih _ ?_
    intro k c hc
    cases hb : d.body with
    | none =>
      simp only [processDeclLSP, hb] at hc
      exact h k c hc
    | some b =>
      cases hp : d.prepareRes with
      | error e =>
        simp only [processDeclLSP, hb, hp] at hc
        exact h k c hc
      | ok items =>
        cases items with
        | nil =>
          simp only [processDeclLSP, hb, hp] at hc
          exact h k c hc
        | cons root rest2 =>
          cases ho : root.outgoingRes with
          | error e =>
            simp only [processDeclLSP, hb, hp, ho] at hc
            exact h k c hc
          | ok outs =>
            simp only [processDeclLSP, hb, hp, ho] at hc
            rw [rawLookup_appendEdges] at hc
            by_cases hk : d.name = k
            · rw [if_pos hk] at hc
              rcases List.mem_append.mp hc with hc | hc
              · exact h k c hc
              · exact ((mem_dedupKeep names outs c).mp hc).2
            · rw [if_neg hk] at hc
              exact h k c hc

theorem rawSub_extractCallGraph (names : List String) (files : List GoFile)
    (k c : String) (h : c ∈ rawLookup (extractCallGraph names files) k) : c ∈ names := by
  rcases (mem_rawLookup_extractCallGraph names files k c).mp h with ⟨d, _, _, b, _, hcb⟩
  exact ((mem_dedupKeep names (callTargets b) c).mp hcb).2

theorem rawSub_extractGraphLSP (names : List String) (files : List GoFile)
    (k c : String) (h : c ∈ rawLookup (extractGraphLSP names files).1 k) : c ∈ names := by
  unfold extractGraphLSP at h
  rw [foldl_files_eq] at h
  exact rawSub_fold_lsp names (declsOf files) []
    (by intro k2 c2 hc2; simp [rawLookup, alookup] at hc2) k c h

theorem nodupKeys_detfold (ds : List GoDecl) :
    ∀ m : List (String × FuncDetail), nodupKeys m →
    nodupKeys (ds.foldl (fun m2 d => mapSet m2 d.name ⟨d.signature, d.definition⟩) m) := by
  induction ds with
  | nil => intro m h; exact h
  | cons d rest ih =>
    intro m h
    rw [List.foldl_cons]
    exact ih _ (nodup_keysOf_mapSet m d.name _ h)

theorem nodupKeys_extractDetails (files : List GoFile) :
    nodupKeys (extractDetails files) := by
  rw [extractDetails_eq_flat]
  exact nodupKeys_detfold (declsOf files) [] (by simp [nodupKeys, keysOf])

/-- C3: assembly completeness.  For every declaration index (a Go map, so
its keys are unique) and every edge-source map, the assembled graph has
exactly the declared names as keys, and a caller absent from the
edge-source map gets a node that is present and has an empty (non-nil)
callee list. -/
theorem assembleGraph_complete (details : List (String × FuncDetail))
    (raw : List (String × List String)) (hnd : nodupKeys details) :
    (∀ k, k ∈ keysOf (assembleGraph details raw) ↔ k ∈ keysOf details) ∧
    (∀ k det, alookup details k = some det → alookup raw k = none →
      alookup (assembleGraph details raw) k =
        some { callees := [], signature := det.signature, definition := det.definition }) := by
  constructor
  · intro k
    exact mem_keysOf_assembleGraph details raw k
  · intro k det hdet hraw
    rw [alookup_assembleGraph details raw hnd k, hdet, hraw]
    rfl

/-- C3 witness: a one-entry declaration index against an empty edge source. -/
theorem assembleGraph_complete_witness :
    nodupKeys [("A", (⟨"s", "d"⟩ : FuncDetail))] ∧
    alookup (assembleGraph [("A", (⟨"s", "d"⟩ : FuncDetail))] []) "A" =
      some { callees := [], signature := "s", definition := "d" } :=
  ⟨by decide,
    (assembleGraph_complete [("A", ⟨"s", "d"⟩)] [] (by decide)).2 "A" ⟨"s", "d"⟩
      (by decide) (by decide)⟩

/-- C4: closed-world edge invariant.  In every graph produced by the
extraction-plus-assembly pipeline, lexical or precision mode, every name
appearing in any node's callee list is itself a key of the node map; no
edge references a name outside the declared functions. -/
theorem closedWorld_pipelines (files : List GoFile) :
    closedWorld (buildCallGraphLex files) ∧ closedWorld (buildCallGraphLSP files) := by
  constructor
  · intro p hp c hc
    have hcall : p.2.callees = rawLookup (extractCallGraph (namesOf files) files) p.1 :=
      callees_of_mem_assembleGraph (extractDetails files)
        (extractCallGraph (namesOf files) files) p hp
    rw [hcall] at hc
    have hnames : c ∈ namesOf files :=
      rawSub_extractCallGraph (namesOf files) files p.1 c hc
    show c ∈ keysOf (assembleGraph (extractDetails files) (extractCallGraph (namesOf files) files))
    rw [mem_keysOf_assembleGraph, mem_keysOf_extractDetails]
    exact hnames
  · intro p hp c hc
    have hcall : p.2.callees = rawLookup (extractGraphLSP (namesOf files) files).1 p.1 :=
      callees_of_mem_assembleGraph (extractDetails files)
        (extractGraphLSP (namesOf files) files).1 p hp
    rw [hcall] at hc
    have hnames : c ∈ namesOf files :=
      rawSub_extractGraphLSP (namesOf files) files p.1 c hc
    show c ∈ keysOf (assembleGraph (extractDetails files) (extractGraphLSP (namesOf files) files).1)
    rw [mem_keysOf_assembleGraph, mem_keysOf_extractDetails]
    exact hnames

/-- C5: the lexical call extractor, for every function body and known-name
set: a known name targeted by any number of call sites (in particular two
or more distinct ones) appears exactly once in the collected callee set,
and a call whose target name (bare identifier or trailing selector name)
is not a known name contributes no edge; the extractor is a total
function, so no error is raised on unknown names. -/
theorem lexCallees_one_edge_unknown_dropped (names : List String) (body : Expr) (c : String) :
    (c ∉ names → c ∉ lexCallees names body) ∧
    (c ∈ names → (lexCallees names body).count c =
      if c ∈ callTargets body then 1 else 0) := by
  constructor
  · intro hc hmem
    exact hc ((mem_dedupKeep names (callTargets body) c).mp hmem).2
  · intro hc
    unfold lexCallees
    rw [count_dedupKeep]
    by_cases hb : c ∈ callTargets body
    · rw [if_pos ⟨hb, hc⟩, if_pos hb]
    · rw [if_neg (fun h => hb h.1), if_neg hb]

/-- C5 witness: on a body with two call sites to `f`, the known name `f`
yields exactly one edge and the unknown name `g` yields none. -/
theorem lexCallees_one_edge_unknown_dropped_witness :
    "g" ∉ lexCallees ["f"] twoCallBody ∧ (lexCallees ["f"] twoCallBody).count "f" = 1 := by
  constructor
  · exact (lexCallees_one_edge_unknown_dropped ["f"] twoCallBody "g").1 (by decide)
  · have h := (lexCallees_one_edge_unknown_dropped ["f"] twoCallBody "f").2 (by decide)
    rw [if_pos (by decide : "f" ∈ callTargets twoCallBody)] at h
    exact h

theorem processDeclLSP_skip (names : List String) (g : List (String × List String))
    (d : GoDecl)
    (h : d.prepareRes = .error () ∨ d.prepareRes = .ok [] ∨
      ∃ root rest, d.prepareRes = .ok (root :: rest) ∧ root.outgoingRes = .error ()) :
    processDeclLSP names g d = g := by
  cases hb : d.body with
  | none => simp only [processDeclLSP, hb]
  | some b =>
    rcases h with h | h | ⟨root, rest, h1, h2⟩
    · simp only [processDeclLSP, hb, h]
    · simp only [processDeclLSP, hb, h]
    · simp only [processDeclLSP, hb, h1, h2]

theorem processDeclLSP_first_item (names : List String) (g : List (String × List String))
    (d : GoDecl) (root : Item) (rest : List Item)
    (h : d.prepareRes = .ok (root :: rest)) :
    processDeclLSP names g d =
      processDeclLSP names g { d with prepareRes := .ok [root] } := by
  cases hb : d.body with
  | none => simp only [processDeclLSP, hb]
  | some b => simp only [processDeclLSP, hb, h]

theorem foldl_skip_decl {β : Type} (step : β → GoDecl → β) (A B : List GoDecl)
    (d : GoDecl) (init : β) (h : ∀ g, step g d = g) :
    (A ++ d :: B).foldl step init = (A ++ B).foldl step init := by
  rw [List.foldl_append, List.foldl_append, List.foldl_cons, h]

theorem foldl_congr_decl {β : Type} (step : β → GoDecl → β) (A B : List GoDecl)
    (d d2 : GoDecl) (init : β) (h : ∀ g, step g d = step g d2) :
    (A ++ d :: B).foldl step init = (A ++ d2 :: B).foldl step init := by
  rw [List.foldl_append, List.foldl_append, List.foldl_cons, List.foldl_cons, h]

theorem declsOf_decomp (files1 files2 : List GoFile) (f1 f2 : List GoDecl) (d : GoDecl) :
    declsOf (files1 ++ [f1 ++ d :: f2] ++ files2) =
      (declsOf files1 ++ f1) ++ d :: (f2 ++ declsOf files2) := by
  simp [declsOf]

theorem declsOf_decomp_no_mid (files1 files2 : List GoFile) (f1 f2 : List GoDecl) :
    declsOf (files1 ++ [f1 ++ f2] ++ files2) =
      (declsOf files1 ++ f1) ++ (f2 ++ declsOf files2) := by
  simp [declsOf]

/-- C6: precision-mode failure semantics, for any declaration `d` anywhere
in the corpus.  If the prepare-call-hierarchy query fails, returns zero
items, or the outgoing-calls query on its first item fails, then `d`
contributes no edges: the extraction result equals the result on the corpus
with `d` removed, so extraction continues with the remaining functions.
The extraction pass itself never returns an error (its error component is
always nil).  And when the prepare query returns more than one item, only
the first item is consulted: replacing the item list by its first element
alone leaves the result unchanged. -/
theorem lsp_query_failures_and_first_item (names : List String)
    (files1 files2 : List GoFile) (f1 f2 : List GoDecl) (d : GoDecl) :
    ((d.prepareRes = .error () ∨ d.prepareRes = .ok [] ∨
        ∃ root rest, d.prepareRes = .ok (root :: rest) ∧ root.outgoingRes = .error ()) →
      extractGraphLSP names (files1 ++ [f1 ++ d :: f2] ++ files2) =
        extractGraphLSP names (files1 ++ [f1 ++ f2] ++ files2)) ∧
    (extractGraphLSP names (files1 ++ [f1 ++ d :: f2] ++ files2)).2 = none ∧
    (∀ root rest, d.prepareRes = .ok (root :: rest) →
      extractGraphLSP names (files1 ++ [f1 ++ d :: f2] ++ files2) =
        extractGraphLSP names
          (files1 ++ [f1 ++ ({ d with prepareRes := .ok [root] } : GoDecl) :: f2] ++ files2)) := by
  refine ⟨?_, rfl, ?_⟩
  · intro h
    have hfst : (extractGraphLSP names (files1 ++ [f1 ++ d :: f2] ++ files2)).1 =
        (extractGraphLSP names (files1 ++ [f1 ++ f2] ++ files2)).1 := by
      unfold extractGraphLSP
      rw [foldl_files_eq, foldl_files_eq, declsOf_decomp, declsOf_decomp_no_mid]
      exact foldl_skip_decl (processDeclLSP names) (declsOf files1 ++ f1)
        (f2 ++ declsOf files2) d [] (fun g => processDeclLSP_skip names g d h)
    exact Prod.ext hfst rfl
  · intro root rest h
    have hfst : (extractGraphLSP names (files1 ++ [f1 ++ d :: f2] ++ files2)).1 =
        (extractGraphLSP names
          (files1 ++ [f1 ++ ({ d with prepareRes := .ok [root] } : GoDecl) :: f2] ++ files2)).1 := by
      unfold extractGraphLSP
      rw [foldl_files_eq, foldl_files_eq, declsOf_decomp, declsOf_decomp]
      exact foldl_congr_decl (processDeclLSP names) (declsOf files1 ++ f1)
        (f2 ++ declsOf files2) d _ []
        (fun g => processDeclLSP_first_item names g d root rest h)
    exact Prod.ext hfst rfl

/-- C6 witness: a corpus whose only declaration has a failing prepare query
extracts the same (empty) edge map as the corpus without it. -/
theorem lsp_query_failures_and_first_item_witness :
    extractGraphLSP ["a"] ([] ++ [[] ++ failingDecl :: []] ++ []) =
      extractGraphLSP ["a"] ([] ++ [([] : List GoDecl) ++ []] ++ []) :=
  (lsp_query_failures_and_first_item ["a"] [] [] [] [] failingDecl).1 (Or.inl (by decide))

/-- C8: when a corpus declares two distinct functions with the same name,
the pipeline produces a single node for that name (the assembled map's
keys are unique), whose signature and definition are those of the
declaration processed last, and whose callee list is the raw edge map's
entry for the name, which merges the edges contributed by every
declaration carrying that name. -/
theorem name_collision_last_write_wins (files : List GoFile) (n : String) :
    nodupKeys (buildCallGraphLex files) ∧
    (∀ d, lastDeclNamed files n = some d →
      alookup (buildCallGraphLex files) n =
        some { callees := rawLookup (extractCallGraph (namesOf files) files) n,
               signature := d.signature, definition := d.definition }) ∧
    (∀ c, c ∈ rawLookup (extractCallGraph (namesOf files) files) n ↔
      ∃ d ∈ declsOf files, d.name = n ∧ ∃ b, d.body = some b ∧
        c ∈ lexCallees (namesOf files) b) := by
  refine ⟨nodupKeys_assembleGraph (extractDetails files) (extractCallGraph (namesOf files) files),
    ?_, fun c => mem_rawLookup_extractCallGraph (namesOf files) files n c⟩
  intro d hd
  show alookup (assembleGraph (extractDetails files) (extractCallGraph (namesOf files) files)) n
    = _
  rw [alookup_assembleGraph (extractDetails files) (extractCallGraph (namesOf files) files)
    (nodupKeys_extractDetails files) n, alookup_extractDetails, hd]
  rfl

/-- C8 witness: with `f` declared twice, the single node for `f` carries
the second declaration's signature and definition and the merged edges of
both declarations. -/
theorem name_collision_last_write_wins_witness :
    lastDeclNamed collideCorpus "f" = some collideDecl2 ∧
    alookup (buildCallGraphLex collideCorpus) "f" =
      some { callees := ["g", "h"], signature := "sig2", definition := "def2" } := by
  refine ⟨by decide, ?_⟩
  have h := (name_collision_last_write_wins collideCorpus "f").2.1 collideDecl2 (by decide)
  have hr : rawLookup (extractCallGraph (namesOf collideCorpus) collideCorpus) "f"
      = ["g", "h"] := by decide
  rw [h, hr]
  rfl

/-- C10: a function declared without a body.  Its name still enters the
known-name set and the detail map, so it appears as a key of the assembled
graph in both modes; if every declaration of that name is bodyless, its
node's callee list is empty; both edge extractors skip it as a caller
(their per-declaration step is the identity on it, so they never fail on
it); and it is eligible to appear as a callee: any bodied declaration
whose body targets its name contributes that edge in lexical mode. -/
theorem bodyless_decl_in_graph (files : List GoFile) (d : GoDecl)
    (hd : d ∈ declsOf files) (hb : d.body = none) :
    d.name ∈ namesOf files ∧
    d.name ∈ keysOf (extractDetails files) ∧
    d.name ∈ keysOf (buildCallGraphLex files) ∧
    d.name ∈ keysOf (buildCallGraphLSP files) ∧
    ((∀ d2 ∈ declsOf files, d2.name = d.name → d2.body = none) →
      ∀ node, alookup (buildCallGraphLex files) d.name = some node → node.callees = []) ∧
    (∀ g, processDeclLex (namesOf files) g d = g ∧ processDeclLSP (namesOf files) g d = g) ∧
    (∀ d2 b, d2 ∈ declsOf files → d2.body = some b → d.name ∈ callTargets b →
      d.name ∈ rawLookup (extractCallGraph (namesOf files) files) d2.name) := by
  have hname : d.name ∈ namesOf files := by
    rw [namesOf_eq]
    exact List.mem_map_of_mem (·.name) hd
  have hdet : d.name ∈ keysOf (extractDetails files) :=
    (mem_keysOf_extractDetails files d.name).mpr hname
  refine ⟨hname, hdet, ?_, ?_, ?_, ?_, ?_⟩
  · show d.name ∈ keysOf (assembleGraph (extractDetails files)
      (extractCallGraph (namesOf files) files))
    rw [mem_keysOf_assembleGraph]
    exact hdet
  · show d.name ∈ keysOf (assembleGraph (extractDetails files)
      (extractGraphLSP (namesOf files) files).1)
    rw [mem_keysOf_assembleGraph]
    exact hdet
  · intro hall node hnode
    have hmem : (d.name, node) ∈ assembleGraph (extractDetails files)
        (extractCallGraph (namesOf files) files) :=
      alookup_mem _ d.name node hnode
    have hcall := callees_of_mem_assembleGraph (extractDetails files)
      (extractCallGraph (namesOf files) files) (d.name, node) hmem
    rw [hcall]
    rw [List.eq_nil_iff_forall_not_mem]
    intro c hc
    rcases (mem_rawLookup_extractCallGraph (namesOf files) files d.name c).mp hc with
      ⟨d2, hd2, hn2, b, hb2, _⟩
    rw [hall d2 hd2 hn2] at hb2
    exact Option.noConfusion hb2
  · intro g
    constructor
    · simp only [processDeclLex, hb]
    · simp only [processDeclLSP, hb]
  · intro d2 b hd2 hb2 htarget
    exact (mem_rawLookup_extractCallGraph (namesOf files) files d2.name d.name).mpr
      ⟨d2, hd2, rfl, b, hb2,
        (mem_dedupKeep (namesOf files) (callTargets b) d.name).mpr ⟨htarget, hname⟩⟩

/-- C10 witness: the bodyless `ext` is a known name and a key of the
assembled lexical graph, and the caller `m` gains the edge to it. -/
theorem bodyless_decl_in_graph_witness :
    "ext" ∈ namesOf externCorpus ∧
    "ext" ∈ keysOf (buildCallGraphLex externCorpus) ∧
    "ext" ∈ rawLookup (extractCallGraph (namesOf externCorpus) externCorpus) "m" := by
  have h := bodyless_decl_in_graph externCorpus externDecl (by decide) (by decide)
  exact ⟨h.1, h.2.2.1,
    h.2.2.2.2.2.2 externCaller (.call (.ident "ext") .atom)
      (by decide) (by decide) (by decide)⟩

/-- C4 witness: in the concrete corpus, the callee `ext` of node `m` is
itself a key of the assembled lexical graph. -/
theorem closedWorld_pipelines_witness :
    "ext" ∈ keysOf (buildCallGraphLex externCorpus) :=
  (closedWorld_pipelines externCorpus).1
    ("m", { callees := ["ext"], signature := "sm", definition := "dm" })
    (by decide) "ext" (by decide)
